import Mathlib

/-!
Verification of jsonwatch (structural JSON diff watcher).

A shallow embedding of the program in Lean 4:

* the JSON-like `Value` model, the recursive diff algorithm and the
  diff-result renderer (the `jsonwatch::diff` library module is not part of
  the `src/` tree of this repository — only `src/main.rs` is — so those
  definitions are modelled from the specification, as marked in their
  doc comments);
* the pieces of `src/main.rs` that the properties are about:
  `escape_for_terminal`, `run_command`, and the polling loop `watch`
  (modelled as a per-tick state-transition function, with the sampling
  lambda and the JSON parser treated as external oracles, exactly as the
  program treats them).
-/

namespace Jsonwatch

/-- Modelled from the spec: the JSON-like value model (§3) of the
`jsonwatch::diff` module, which is not under `src/` in this repository.
A closed sum: null, boolean, number, string, ordered array, and
ordered-insertion object (a sequence of key/value pairs, keys unique by
invariant).  The integer-vs-float distinction of the number variant is
irrelevant to every property below, so numbers carry an `Int`. -/
inductive Value where
  | null
  | bool (b : Bool)
  | num (n : Int)
  | str (s : String)
  | arr (xs : List Value)
  | obj (kvs : List (String × Value))
deriving Repr

mutual

/-- Modelled from the spec: structural equality of Values (§4.1) —
same variant and recursively equal contents; object equality is
order-independent (same size and every old entry found by key in the
other object with an equal value, matching `IndexMap` equality). -/
def valueEq : Value → Value → Bool
  | .null, .null => true
  | .bool a, .bool b => a == b
  | .num a, .num b => a == b
  | .str a, .str b => a == b
  | .arr a, .arr b => listEq a b
  | .obj a, .obj b => a.length == b.length && objSub a b
  | _, _ => false
termination_by v w => sizeOf v + sizeOf w

/-- Pointwise structural equality of two Value sequences. -/
def listEq : List Value → List Value → Bool
  | [], [] => true
  | x :: a, y :: b => valueEq x y && listEq a b
  | _, _ => false
termination_by a b => sizeOf a + sizeOf b

/-- Every entry of the first object is found, by key, in the second with a
structurally equal value. -/
def objSub : List (String × Value) → List (String × Value) → Bool
  | [], _ => true
  | (k, v) :: a, b => findEq k v b && objSub a b
termination_by a b => sizeOf a + sizeOf b

/-- Looks up key `k` in an object and tests its value against `v`. -/
def findEq : String → Value → List (String × Value) → Bool
  | _, _, [] => false
  | k, v, (k2, w) :: b => if k = k2 then valueEq v w else findEq k v b
termination_by _ v b => sizeOf v + sizeOf b

end

/-- Modelled from the spec: one path segment (§3) — a field name for object
traversal or an index for array traversal. -/
inductive PathSeg where
  | key (k : String)
  | idx (i : Nat)
deriving Repr, DecidableEq

/-- Modelled from the spec: a path is an ordered sequence of segments; the
empty path addresses the root. -/
abbrev Path := List PathSeg

/-- Modelled from the spec: the kind of one diff entry (§3). -/
inductive ChangeKind where
  | added (v : Value)
  | removed (v : Value)
  | changed (o n : Value)
deriving Repr

/-- Modelled from the spec: one reported difference — a path plus a kind. -/
structure DiffEntry where
  path : Path
  kind : ChangeKind
deriving Repr

/-- A value looked up in an association list is structurally smaller than
the list (used for the termination of `compare`). -/
theorem lookup_sizeOf {k : String} {b : List (String × Value)} {w : Value}
    (h : b.lookup k = some w) : sizeOf w < sizeOf b := by
  induction b with
  | nil => simp [List.lookup] at h
  | cons hd tl ih =>
    obtain ⟨k2, v2⟩ := hd
    simp [List.lookup] at h
    split at h
    · cases h
      simp
      omega
    · have := ih h
      simp at this ⊢
      omega

mutual

/-- Modelled from the spec: the recursive comparison
`compare(path, old, new, out)` of §4.2, for the `jsonwatch::diff` module
that is not under `src/`.  Structurally equal values emit nothing; two
arrays are compared positionally; two objects are compared by key walk
(old's keys in old's order via `compareOldKeys`, then new's keys not
present in old, in new's order, as `Added` entries); every other pair
(differing variants, or unequal scalars of the same variant) emits a
single `Changed` entry and recurses no further. -/
def compare (path : Path) (old new : Value) : List DiffEntry :=
  if valueEq old new then []
  else
    match old, new with
    | .arr a, .arr b => compareArrays path 0 a b
    | .obj a, .obj b =>
        compareOldKeys path a b ++
          (b.filter (fun kv => (a.lookup kv.1).isNone)).map
            (fun kv => ⟨path ++ [.key kv.1], .added kv.2⟩)
    | o, n => [⟨path, .changed o n⟩]
termination_by sizeOf old + sizeOf new

/-- Modelled from the spec: positional array comparison (§4.2) — indices
below `min(len old, len new)` recurse, the longer side's tail becomes
`Removed` (old longer) or `Added` (new longer) entries; `i` is the index of
the heads. -/
def compareArrays (path : Path) (i : Nat) : List Value → List Value → List DiffEntry
  | [], [] => []
  | [], y :: b => ⟨path ++ [.idx i], .added y⟩ :: compareArrays path (i + 1) [] b
  | x :: a, [] => ⟨path ++ [.idx i], .removed x⟩ :: compareArrays path (i + 1) a []
  | x :: a, y :: b =>
      compare (path ++ [.idx i]) x y ++ compareArrays path (i + 1) a b
termination_by a b => sizeOf a + sizeOf b

/-- Modelled from the spec: the old-key half of the object walk — a key
present only in old emits `Removed`, a key present in both recurses. -/
def compareOldKeys (path : Path) : List (String × Value) → List (String × Value) → List DiffEntry
  | [], _ => []
  | (k, v) :: a, b =>
      (match h : b.lookup k with
       | some w => compare (path ++ [.key k]) v w
       | none => [⟨path ++ [.key k], .removed v⟩]) ++ compareOldKeys path a b
termination_by a b => sizeOf a + sizeOf b
decreasing_by
  all_goals first
    | (have hls := lookup_sizeOf h
       simp
       try omega)
    | (simp
       try omega)

end

/-- Modelled from the spec: the public diff contract (§4.2) —
`diff(prev, curr)` over optional values, with the four top-level cases at
the root path. -/
def diff (prev curr : Option Value) : List DiffEntry :=
  match prev, curr with
  | none, none => []
  | none, some v => [⟨[], .added v⟩]
  | some v, none => [⟨[], .removed v⟩]
  | some a, some b => compare [] a b

mutual

/-- The object-key uniqueness invariant of the spec's data model (§3):
every object of the value carries pairwise distinct keys. -/
def wfValue : Value → Bool
  | .arr xs => wfList xs
  | .obj kvs => decide ((kvs.map Prod.fst).Nodup) && wfObj kvs
  | _ => true
termination_by v => sizeOf v

def wfList : List Value → Bool
  | [] => true
  | x :: xs => wfValue x && wfList xs
termination_by xs => sizeOf xs

def wfObj : List (String × Value) → Bool
  | [] => true
  | (_, v) :: rest => wfValue v && wfObj rest
termination_by kvs => sizeOf kvs

end

/-- The variant tag of a value, the "type identity query" of §4.1 used to
tell "same shape" from "type changed". -/
def variantIdx : Value → Nat
  | .null => 0
  | .bool _ => 1
  | .num _ => 2
  | .str _ => 3
  | .arr _ => 4
  | .obj _ => 5

/-- From `src/main.rs`: the predicate behind Rust's `char::is_control`
(Unicode category Cc: U+0000–U+001F and U+007F–U+009F). -/
def is_control (c : Char) : Bool :=
  decide (c.toNat ≤ 0x1f) || (decide (0x7f ≤ c.toNat) && decide (c.toNat ≤ 0x9f))

/-- One digit in base up to 16, lowercase, as Rust's `{:x}` formatting
produces. -/
def digitChar (n : Nat) : Char :=
  if n < 10 then Char.ofNat (48 + n) else Char.ofNat (87 + n)

/-- Digits of `n` in base `b` (most significant first, empty for zero). -/
def digitsBase (b n : Nat) : List Char :=
  if h : n = 0 ∨ b ≤ 1 then []
  else digitsBase b (n / b) ++ [digitChar (n % b)]
termination_by n
decreasing_by
  push_neg at h
  exact Nat.div_lt_self (Nat.pos_of_ne_zero h.1) (by omega)

/-- Lowercase hexadecimal rendering of a natural number, Rust's `{:x}`. -/
def toHex (n : Nat) : String :=
  if n = 0 then "0" else ⟨digitsBase 16 n⟩

/-- Decimal rendering of a natural number. -/
def natRepr (n : Nat) : String :=
  if n = 0 then "0" else ⟨digitsBase 10 n⟩

/-- Decimal rendering of an integer. -/
def intRepr (n : Int) : String :=
  if n < 0 then "-" ++ natRepr n.natAbs else natRepr n.natAbs

/-- From `src/main.rs` lines 120–139, the per-character action of
`escape_for_terminal`: newline and tab pass through, any other control
character becomes the numeric escape `\u{...}` with lowercase hex, and
every remaining character is kept. -/
def escapeChar (c : Char) : String :=
  if c = '\n' ∨ c = '\t' then String.singleton c
  else if is_control c then "\\u\x7b" ++ toHex c.toNat ++ "\x7d"
  else String.singleton c

/-- From `src/main.rs` lines 120–139: `escape_for_terminal` walks the
characters of the input and accumulates their escapes. -/
def escape_for_terminal (input : String) : String :=
  String.join (input.data.map escapeChar)

/-- From `src/main.rs` lines 86–97: `run_command`.  An empty command string
returns `Ok("")` immediately; otherwise the external process spawn (an
oracle here, returning either the lossy-decoded stdout or a spawn error) is
consulted and its error propagated with `?`. -/
def run_command (command : String) (args : List String)
    (spawn : String → List String → Except String String) : Except String String :=
  if command.isEmpty then .ok ""
  else
    match spawn command args with
    | .ok out => .ok out
    | .error e => .error e

/-- Modelled from the spec: four-hex-digit escape body used inside JSON
string escapes. -/
def hex4 (n : Nat) : String :=
  let h := toHex n
  String.mk (List.replicate (4 - h.length) '0') ++ h

/-- Modelled from the spec: JSON string escaping for the compact rendering
of values inside a diff entry (§4.3) — quotes and backslashes escaped,
control characters as `\n`, `\t`, `\r` or a `\u00xx` escape, everything
else kept. -/
def jsonEscapeChar (c : Char) : String :=
  if c = '"' then "\\\""
  else if c = '\\' then "\\\\"
  else if c = '\n' then "\\n"
  else if c = '\t' then "\\t"
  else if c = '\r' then "\\r"
  else if c.toNat < 32 then "\\u" ++ hex4 c.toNat
  else String.singleton c

/-- JSON string escaping applied characterwise. -/
def jsonEscape (s : String) : String :=
  String.join (s.data.map jsonEscapeChar)

mutual

/-- Modelled from the spec: compact JSON text of a value (§4.3); the exact
glyphs are implementation-defined (§9), the contract is a single-line
compact rendering with string contents escaped. -/
def renderValue : Value → String
  | .null => "null"
  | .bool b => cond b "true" "false"
  | .num n => intRepr n
  | .str s => "\"" ++ jsonEscape s ++ "\""
  | .arr xs => "[" ++ renderList xs ++ "]"
  | .obj kvs => "\x7b" ++ renderObj kvs ++ "\x7d"
termination_by v => sizeOf v

/-- Comma-separated compact rendering of array elements. -/
def renderList : List Value → String
  | [] => ""
  | [x] => renderValue x
  | x :: xs => renderValue x ++ "," ++ renderList xs
termination_by xs => sizeOf xs

/-- Comma-separated compact rendering of object entries. -/
def renderObj : List (String × Value) → String
  | [] => ""
  | [(k, v)] => "\"" ++ jsonEscape k ++ "\":" ++ renderValue v
  | (k, v) :: kvs => "\"" ++ jsonEscape k ++ "\":" ++ renderValue v ++ "," ++ renderObj kvs
termination_by kvs => sizeOf kvs

end

/-- Modelled from the spec: the textual form of a path (§4.3) — the root
path renders as the empty text, a field segment as a dot plus the (escaped,
to keep entries single-line) key, an index segment in brackets. -/
def renderPath (p : Path) : String :=
  String.join (p.map fun seg =>
    match seg with
    | .key k => "." ++ jsonEscape k
    | .idx i => "[" ++ natRepr i ++ "]")

/-- Modelled from the spec: the single-line rendering of one diff entry
(§4.3) — its path, a marker distinguishing the kind, and the value(s) as
compact JSON. -/
def renderEntry : DiffEntry → String
  | ⟨p, .added v⟩ => "+ " ++ renderPath p ++ ": " ++ renderValue v
  | ⟨p, .removed v⟩ => "- " ++ renderPath p ++ ": " ++ renderValue v
  | ⟨p, .changed o n⟩ =>
      "~ " ++ renderPath p ++ ": " ++ renderValue o ++ " -> " ++ renderValue n

/-- Modelled from the spec: the rendering of a whole DiffResult (§4.3) —
one line per entry, each terminated by a newline, with no leading line
break (this is the `Display` of the `jsonwatch::diff` module, which is not
under `src/`). -/
def renderDiff (d : List DiffEntry) : String :=
  String.join (d.map fun e => renderEntry e ++ "\n")

/-- Helper for the `str::lines` model: the accumulator holds the current
line reversed, so a carriage return that ends the line sits at its head. -/
def dropCR : List Char → List Char
  | [] => []
  | c :: t => if c = '\r' then t else c :: t

/-- The splitting behind Rust's `str::lines`, on the character list: lines
are cut at `'\n'` (a `'\r'` directly before it is removed), the line
terminator of the final line is optional, and a trailing terminator adds no
empty final line. -/
def linesAux : List Char → List Char → List (List Char)
  | [], acc => if acc.isEmpty then [] else [acc.reverse]
  | c :: rest, acc =>
      if c = '\n' then (dropCR acc).reverse :: linesAux rest []
      else linesAux rest (c :: acc)

/-- From `src/main.rs` line 281: the `.lines()` iterator of Rust used by
`watch` to re-indent a multi-entry diff rendering. -/
def rustLines (s : String) : List String :=
  (linesAux s.data []).map String.mk

/-- From `src/main.rs` lines 266–285: how one non-empty diff is printed on
a tick.  With the date enabled the timestamp is printed first, followed on
the same line by a space and the rendering when there is exactly one entry,
or by a line break and the entry lines re-indented by four spaces when
there are several. -/
def renderTick (printDate : Bool) (ts : String) (d : List DiffEntry) : String :=
  (if printDate then ts ++ (if d.length = 1 then " " else "\n") else "") ++
    (if d.length = 1 then renderDiff d
     else "    " ++ String.intercalate "\n    " (rustLines (renderDiff d)) ++ "\n")

/-- From `src/main.rs` `watch`: the loop-carried state — the stored parsed
value `data` and the `change_count` counter. -/
structure WatchState where
  data : Option Value
  changeCount : Nat
deriving Repr

/-- What one polling tick observes from the outside world: either the
sampling lambda failed, or it produced raw text `raw` whose JSON parse
result is `parsed` (`none` when `serde_json::from_str` fails; the parser is
an external collaborator, so its verdict is an oracle input here). -/
inductive TickInput where
  | sampleErr
  | sample (raw : String) (parsed : Option Value)

/-- What one iteration of the loop in `src/main.rs` lines 211–286 did:
`exited` for the `break` at the change limit, the two `continue` paths with
their logging verdict (`true` when an `[ERROR ...]` line was printed), a
tick whose diff was empty, or a reported change with the printed text. -/
inductive TickResult where
  | exited
  | skippedSampleError (logged : Bool)
  | skippedParseError (logged : Bool)
  | noChange
  | reported (output : String)
deriving Repr, DecidableEq

/-- From `src/main.rs` lines 212–216: the change-limit test at the top of
the loop. -/
def atLimit (changes : Option Nat) (st : WatchState) : Bool :=
  match changes with
  | some max => decide (max ≤ st.changeCount)
  | none => false

/-- Rust's `char::is_whitespace`: the Unicode `White_Space` property —
U+0009–U+000D, U+0020, U+0085, U+00A0, U+1680, U+2000–U+200A, U+2028,
U+2029, U+202F, U+205F and U+3000. -/
def rustIsWhitespace (c : Char) : Bool :=
  (decide (0x09 ≤ c.toNat) && decide (c.toNat ≤ 0x0d)) ||
  decide (c.toNat = 0x20) || decide (c.toNat = 0x85) ||
  decide (c.toNat = 0xa0) || decide (c.toNat = 0x1680) ||
  (decide (0x2000 ≤ c.toNat) && decide (c.toNat ≤ 0x200a)) ||
  decide (c.toNat = 0x2028) || decide (c.toNat = 0x2029) ||
  decide (c.toNat = 0x202f) || decide (c.toNat = 0x205f) ||
  decide (c.toNat = 0x3000)

/-- From `src/main.rs`: the test `input_data.trim().is_empty()` guarding
the parse-error report — true exactly when the raw text is empty or all
whitespace (Rust's `str::trim` strips characters with the Unicode
`White_Space` property from both ends, so trimming leaves nothing iff
every character has it). -/
def allWhitespace (s : String) : Bool :=
  s.data.all rustIsWhitespace

/-- From `src/main.rs` lines 256–285: the tail of the loop body once a new
current value `newData` is in hand — diff the stored value against it,
store it, `continue` when the diff is empty, otherwise bump the counter and
print. -/
def tickDiff (printDate : Bool) (ts : String) (st : WatchState)
    (newData : Option Value) : WatchState × TickResult :=
  let d := diff st.data newData
  if d.length = 0 then ({ data := newData, changeCount := st.changeCount }, .noChange)
  else ({ data := newData, changeCount := st.changeCount + 1 },
        .reported (renderTick printDate ts d))

/-- From `src/main.rs` lines 218–285: the loop body after the limit test.
A sampling failure logs at `-v` and `continue`s with everything unchanged;
a parse failure on input with non-whitespace content logs at `-v` and
`continue`s with everything unchanged; a parse failure on empty or
all-whitespace input degrades the current value to `None` silently and
proceeds to the diff; a successful parse proceeds to the diff. -/
def watchBody (printDate : Bool) (verbose : Nat) (ts : String)
    (st : WatchState) (inp : TickInput) : WatchState × TickResult :=
  match inp with
  | .sampleErr => (st, .skippedSampleError (decide (1 ≤ verbose)))
  | .sample raw parsed =>
      match parsed with
      | some json => tickDiff printDate ts st (some json)
      | none =>
          if !allWhitespace raw then (st, .skippedParseError (decide (1 ≤ verbose)))
          else tickDiff printDate ts st none

/-- From `src/main.rs` lines 211–286: one full iteration of the polling
loop as a state transition (the `thread::sleep` is timing only and carries
no state). -/
def watchTick (changes : Option Nat) (printDate : Bool) (verbose : Nat)
    (ts : String) (st : WatchState) (inp : TickInput) : WatchState × TickResult :=
  if atLimit changes st then (st, .exited)
  else watchBody printDate verbose ts st inp

/-- From `src/main.rs` lines 171–199: the initial sample and parse before
the loop.  Returns the initial stored value, whether a sampling error was
logged, and whether a parse error was logged.  A failed sample leaves the
raw text empty, and `serde_json` rejects empty input, so the value
degrades to `None` with no parse error logged (the log guard requires
non-whitespace content). -/
def watchInit (verbose : Nat) (inp : TickInput) : Option Value × Bool × Bool :=
  match inp with
  | .sampleErr => (none, decide (1 ≤ verbose), false)
  | .sample raw parsed =>
      match parsed with
      | some json => (some json, false, false)
      | none => (none, false, decide (1 ≤ verbose) && !allWhitespace raw)

/-- Whether a tick reported a change (bumped `change_count`). -/
def isReported : TickResult → Bool
  | .reported _ => true
  | _ => false

/-- The polling loop run over a finite list of tick observations: stops at
the change-limit `break`, otherwise processes the observations in order,
producing the final state and the trace of per-tick results. -/
def watchRun (changes : Option Nat) (printDate : Bool) (verbose : Nat)
    (ts : String) (st : WatchState) : List TickInput → WatchState × List TickResult
  | [] => (st, [])
  | inp :: rest =>
      let next := watchTick changes printDate verbose ts st inp
      if next.2 = .exited then (next.1, [.exited])
      else
        let tail := watchRun changes printDate verbose ts next.1 rest
        (tail.1, next.2 :: tail.2)

end Jsonwatch

namespace Jsonwatch

example : diff (some (.obj [("a", .num 1)])) (some (.arr [.num 1])) =
    [⟨[], .changed (.obj [("a", .num 1)]) (.arr [.num 1])⟩] := by
  simp [diff, compare.eq_def, valueEq]

example : diff (some (.arr [.num 1, .num 2, .num 3]))
    (some (.arr [.num 1, .num 2, .num 3, .num 4])) =
    [⟨[PathSeg.idx 3], .added (.num 4)⟩] := by
  simp [diff, compare.eq_def, compareArrays, valueEq, listEq]

example : diff (some (.arr [.num 1, .num 2, .num 3]))
    (some (.arr [.num 9, .num 2, .num 3])) =
    [⟨[PathSeg.idx 0], .changed (.num 1) (.num 9)⟩] := by
  simp [diff, compare.eq_def, compareArrays, valueEq, listEq]

example : diff (some (.obj [("status", .str "ok"), ("count", .num 3)]))
    (some (.obj [("status", .str "ok"), ("count", .num 4)])) =
    [⟨[PathSeg.key "count"], .changed (.num 3) (.num 4)⟩] := by
  simp [diff, compare.eq_def, compareOldKeys, valueEq, objSub, findEq, List.lookup]

/-! Helper lemmas about the character-level definitions. -/

theorem digitsBase_chars (b : Nat) (hb : b ≤ 16) (n : Nat) :
    ∀ c ∈ digitsBase b n, ∃ m, m < 16 ∧ c = digitChar m := by
  induction n using Nat.strong_induction_on with
  | _ n ih =>
    intro c hc
    rw [digitsBase.eq_def] at hc
    split at hc
    · simp at hc
    · rename_i h
      push_neg at h
      rcases List.mem_append.mp hc with h1 | h2
      · exact ih _ (Nat.div_lt_self (Nat.pos_of_ne_zero h.1) (by omega)) c h1
      · simp at h2
        subst h2
        exact ⟨n % b, by have := Nat.mod_lt n (show 0 < b by omega); omega, rfl⟩

theorem digitChar_safe : ∀ m, m < 16 → is_control (digitChar m) = false ∧ digitChar m ≠ '\n' := by
  decide

theorem toHex_chars (n : Nat) : ∀ c ∈ (toHex n).data, is_control c = false := by
  intro c hc
  rw [toHex] at hc
  split at hc
  · simp_all [String.data]
    subst hc
    decide
  · obtain ⟨m, hm, rfl⟩ := digitsBase_chars 16 (by omega) n c hc
    exact (digitChar_safe m hm).1

theorem escapeChar_chars (x : Char) :
    ∀ c ∈ (escapeChar x).data, is_control c = true → c = '\n' ∨ c = '\t' := by
  intro c hc hctl
  unfold escapeChar at hc
  split at hc
  · rename_i hx
    simp [String.singleton] at hc
    subst hc
    exact hx
  · split at hc
    · rename_i hx
      simp [String.data_append] at hc
      rcases hc with hc | hc | hc | hc | hc
      · subst hc
        exact absurd hctl (by decide)
      · subst hc
        exact absurd hctl (by decide)
      · subst hc
        exact absurd hctl (by decide)
      · rw [toHex_chars x.toNat c hc] at hctl
        simp at hctl
      · subst hc
        exact absurd hctl (by decide)
    · rename_i hx1 hx2
      simp [String.singleton] at hc
      subst hc
      simp [hctl] at hx2

theorem escapeChar_keep (c : Char) (h : is_control c = false ∨ c = '\n' ∨ c = '\t') :
    escapeChar c = String.singleton c := by
  unfold escapeChar
  split
  · rfl
  · rename_i hx
    rcases h with h | h | h
    · simp [h]
    · exact absurd (Or.inl h) hx
    · exact absurd (Or.inr h) hx

theorem escape_single (c : Char) :
    escape_for_terminal (String.singleton c) = escapeChar c := by
  apply String.ext
  simp [escape_for_terminal, String.singleton, String.join_eq]

/-! Claim theorems. -/

/-- C2: `escape_for_terminal` maps newline and tab through unchanged, maps
every other control character to the numeric escape `\u{hex}`, leaves every
non-control character unchanged, and consequently its output never contains
a control character other than newline and tab. -/
theorem escape_for_terminal_correct :
    (∀ c : Char, is_control c = false ∨ c = '\n' ∨ c = '\t' →
        escape_for_terminal (String.singleton c) = String.singleton c) ∧
    (∀ c : Char, is_control c = true → c ≠ '\n' → c ≠ '\t' →
        escape_for_terminal (String.singleton c) =
          "\\u\x7b" ++ toHex c.toNat ++ "\x7d") ∧
    (∀ s : String, escape_for_terminal s =
        String.join (s.data.map fun c => escape_for_terminal (String.singleton c))) ∧
    (∀ s : String, ∀ c ∈ (escape_for_terminal s).data,
        is_control c = true → c = '\n' ∨ c = '\t') := by
  refine ⟨?_, ?_, ?_, ?_⟩
  · intro c h
    rw [escape_single]
    exact escapeChar_keep c h
  · intro c hctl hn ht
    rw [escape_single]
    unfold escapeChar
    rw [if_neg (by simp [hn, ht]), if_pos hctl]
  · intro s
    simp only [escape_single]
    rfl
  · intro s c hc
    rw [escape_for_terminal, String.join_eq] at hc
    simp only [String.data] at hc
    rw [List.map_map] at hc
    obtain ⟨piece, hpiece, hcp⟩ := List.mem_flatten.mp hc
    obtain ⟨x, _, rfl⟩ := List.mem_map.mp hpiece
    exact escapeChar_chars x c hcp

/-- Witness for C2 at the concrete control character U+0001 and at a plain
letter. -/
theorem escape_for_terminal_correct_witness :
    escape_for_terminal (String.singleton (Char.ofNat 1)) =
      "\\u\x7b" ++ toHex (Char.ofNat 1).toNat ++ "\x7d" ∧
    escape_for_terminal (String.singleton 'a') = String.singleton 'a' :=
  ⟨escape_for_terminal_correct.2.1 (Char.ofNat 1) (by decide) (by decide) (by decide),
   escape_for_terminal_correct.1 'a' (Or.inl (by decide))⟩

/-- C4: `diff(None, Some v)` yields exactly one `Added` entry at the root
path carrying `v` whole, `diff(Some v, None)` exactly one `Removed` entry
at the root carrying `v`, and `diff(None, None)` is empty. -/
theorem diff_absence_cases :
    (∀ v, diff none (some v) = [⟨[], .added v⟩]) ∧
    (∀ v, diff (some v) none = [⟨[], .removed v⟩]) ∧
    diff none none = ([] : List DiffEntry) :=
  ⟨fun _ => rfl, fun _ => rfl, rfl⟩

/-- C9: `run_command` with an empty command string returns `Ok("")` without
consulting the process-spawning oracle at all, so an empty command never
produces a sampling error, whatever the spawner would have done. -/
theorem run_command_empty_ok (command : String) (args : List String)
    (spawn : String → List String → Except String String)
    (h : command.isEmpty = true) :
    run_command command args spawn = .ok "" := by
  simp [run_command, h]

/-- Witness for C9: the empty command with an always-failing spawner. -/
theorem run_command_empty_ok_witness :
    "".isEmpty = true ∧
    run_command "" ["x"] (fun _ _ => .error "spawn failure") = .ok "" :=
  ⟨rfl, run_command_empty_ok "" ["x"] (fun _ _ => .error "spawn failure") rfl⟩

/-! Reflexivity of the comparison. -/

theorem wfList_mem {xs : List Value} (h : wfList xs = true) :
    ∀ x ∈ xs, wfValue x = true := by
  induction xs with
  | nil => simp
  | cons x xs ih =>
    rw [wfList] at h
    simp only [Bool.and_eq_true] at h
    intro y hy
    rcases List.mem_cons.mp hy with rfl | hy
    · exact h.1
    · exact ih h.2 y hy

theorem wfObj_mem {kvs : List (String × Value)} (h : wfObj kvs = true) :
    ∀ kv ∈ kvs, wfValue kv.2 = true := by
  induction kvs with
  | nil => simp
  | cons kv kvs ih =>
    obtain ⟨k, v⟩ := kv
    rw [wfObj] at h
    simp only [Bool.and_eq_true] at h
    intro y hy
    rcases List.mem_cons.mp hy with rfl | hy
    · exact h.1
    · exact ih h.2 y hy

theorem listEq_refl_of {xs : List Value} (h : ∀ x ∈ xs, valueEq x x = true) :
    listEq xs xs = true := by
  induction xs with
  | nil => rw [listEq]
  | cons x xs ih =>
    rw [listEq]
    simp only [Bool.and_eq_true]
    exact ⟨h x (by simp), ih fun y hy => h y (by simp [hy])⟩

/-- With pairwise distinct keys, looking an entry's own key up in its object
finds that entry. -/
theorem findEq_self {k : String} {v : Value} {kvs : List (String × Value)}
    (hmem : (k, v) ∈ kvs) (hnd : (kvs.map Prod.fst).Nodup) :
    findEq k v kvs = valueEq v v := by
  induction kvs with
  | nil => simp at hmem
  | cons hd tl ih =>
    obtain ⟨k2, w⟩ := hd
    rw [findEq]
    simp only [List.map_cons, List.nodup_cons] at hnd
    by_cases hk : k = k2
    · subst hk
      rcases List.mem_cons.mp hmem with h1 | h1
      · cases h1
        simp
      · exact absurd (List.mem_map.mpr ⟨(k, v), h1, rfl⟩) hnd.1
    · rw [if_neg hk]
      rcases List.mem_cons.mp hmem with h1 | h1
      · cases h1
        exact absurd rfl hk
      · exact ih h1 hnd.2

theorem objSub_of_forall {a b : List (String × Value)}
    (h : ∀ kv ∈ a, findEq kv.1 kv.2 b = true) : objSub a b = true := by
  induction a with
  | nil => rw [objSub]
  | cons kv a ih =>
    obtain ⟨k, v⟩ := kv
    rw [objSub]
    simp only [Bool.and_eq_true]
    exact ⟨h (k, v) (by simp), ih fun y hy => h y (by simp [hy])⟩

/-- Structural equality is reflexive on values whose object keys are
pairwise distinct (the data-model invariant). -/
theorem valueEq_refl : ∀ (v : Value), wfValue v = true → valueEq v v = true := by
  suffices h : ∀ (n : Nat) (v : Value), sizeOf v ≤ n → wfValue v = true → valueEq v v = true by
    intro v
    exact h (sizeOf v) v le_rfl
  intro n
  induction n with
  | zero =>
    intro v hsz _
    exfalso
    cases v <;> simp at hsz
  | succ n ih =>
    intro v hsz hwf
    cases v with
    | null => rw [valueEq]
    | bool b => rw [valueEq]; simp
    | num m => rw [valueEq]; simp
    | str s => rw [valueEq]; simp
    | arr xs =>
      rw [valueEq]
      have hxs : sizeOf xs ≤ n := by simp at hsz; omega
      rw [wfValue] at hwf
      exact listEq_refl_of fun x hx =>
        ih x (le_trans (Nat.le_of_lt (List.sizeOf_lt_of_mem hx)) hxs) (wfList_mem hwf x hx)
    | obj kvs =>
      rw [valueEq]
      simp only [beq_self_eq_true, Bool.true_and]
      rw [wfValue] at hwf
      simp only [Bool.and_eq_true, decide_eq_true_eq] at hwf
      have hkvs : sizeOf kvs ≤ n := by simp at hsz; omega
      apply objSub_of_forall
      intro kv hkv
      obtain ⟨k, v⟩ := kv
      rw [findEq_self hkv hwf.1]
      have hszv : sizeOf v ≤ n := by
        have h1 := List.sizeOf_lt_of_mem hkv
        simp at h1
        omega
      exact ih v hszv (wfObj_mem hwf.2 (k, v) hkv)

/-- C5: for every value `v` satisfying the data-model invariant (pairwise
distinct object keys), `diff(Some v, Some v)` is empty; and whenever two
values at a path are structurally equal, the recursive comparison emits no
entries for that subtree. -/
theorem diff_reflexive (v : Value) (hv : wfValue v = true) :
    diff (some v) (some v) = [] ∧
    ∀ (path : Path) (o n : Value), valueEq o n = true → compare path o n = [] := by
  constructor
  · show compare [] v v = []
    rw [compare.eq_def, if_pos (valueEq_refl v hv)]
  · intro path o n h
    rw [compare.eq_def, if_pos h]

/-- Witness for C5 at a concrete nested value. -/
theorem diff_reflexive_witness :
    wfValue (Value.obj [("a", .num 1), ("b", .arr [.null])]) = true ∧
    diff (some (Value.obj [("a", .num 1), ("b", .arr [.null])]))
      (some (Value.obj [("a", .num 1), ("b", .arr [.null])])) = [] :=
  ⟨by simp [wfValue, wfObj, wfList],
   (diff_reflexive _ (by simp [wfValue, wfObj, wfList])).1⟩

/-! Type-change short-circuit. -/

theorem valueEq_false_of_variant_ne {o n : Value} (h : variantIdx o ≠ variantIdx n) :
    valueEq o n = false := by
  cases o <;> cases n <;> first
    | (exact absurd rfl h)
    | simp [valueEq]

/-- C7: whenever the variants of the two values differ (object versus
array, number versus string, …), the comparison emits exactly one `Changed`
entry carrying both values whole — no recursion into either value — and so
does the top-level diff at the root. -/
theorem diff_type_change (path : Path) (o n : Value)
    (h : variantIdx o ≠ variantIdx n) :
    compare path o n = [⟨path, .changed o n⟩] ∧
    diff (some o) (some n) = [⟨[], .changed o n⟩] := by
  have hgen : ∀ p : Path, compare p o n = [⟨p, .changed o n⟩] := by
    intro p
    rw [compare.eq_def, valueEq_false_of_variant_ne h]
    simp only [Bool.false_eq_true, if_false]
    cases o <;> cases n <;> first | (exact absurd rfl h) | rfl
  exact ⟨hgen path, hgen []⟩

/-- Witness for C7 at `diff({"a":1}, [1])`. -/
theorem diff_type_change_witness :
    variantIdx (Value.obj [("a", .num 1)]) ≠ variantIdx (Value.arr [.num 1]) ∧
    diff (some (Value.obj [("a", .num 1)])) (some (Value.arr [.num 1])) =
      [⟨[], .changed (.obj [("a", .num 1)]) (.arr [.num 1])⟩] :=
  ⟨by decide,
   (diff_type_change [] (Value.obj [("a", .num 1)]) (Value.arr [.num 1]) (by decide)).2⟩

/-! Positional array semantics. -/

theorem compareArrays_nil_right (path : Path) :
    ∀ (i : Nat) (a : List Value), compareArrays path i a [] =
      (a.enumFrom i).map fun p => (⟨path ++ [.idx p.1], .removed p.2⟩ : DiffEntry) := by
  intro i a
  induction a generalizing i with
  | nil => rw [compareArrays]; rfl
  | cons x a ih => rw [compareArrays, List.enumFrom_cons, List.map_cons, ih]

theorem compareArrays_nil_left (path : Path) :
    ∀ (i : Nat) (b : List Value), compareArrays path i [] b =
      (b.enumFrom i).map fun p => (⟨path ++ [.idx p.1], .added p.2⟩ : DiffEntry) := by
  intro i b
  induction b generalizing i with
  | nil => rw [compareArrays]; rfl
  | cons y b ih => rw [compareArrays, List.enumFrom_cons, List.map_cons, ih]

/-- The closed form of the positional array walk: recursion on the zipped
common prefix, then `Removed` entries for old's surplus tail, then `Added`
entries for new's surplus tail (at most one of the two tails is inhabited). -/
theorem compareArrays_spec (path : Path) :
    ∀ (a b : List Value) (i : Nat), compareArrays path i a b =
      ((a.zip b).enumFrom i).flatMap
        (fun p => compare (path ++ [.idx p.1]) p.2.1 p.2.2) ++
      ((a.drop b.length).enumFrom (i + min a.length b.length)).map
        (fun p => (⟨path ++ [.idx p.1], .removed p.2⟩ : DiffEntry)) ++
      ((b.drop a.length).enumFrom (i + min a.length b.length)).map
        (fun p => (⟨path ++ [.idx p.1], .added p.2⟩ : DiffEntry)) := by
  intro a
  induction a with
  | nil =>
    intro b i
    simp [compareArrays_nil_left]
  | cons x a ih =>
    intro b i
    cases b with
    | nil =>
      simp [compareArrays_nil_right]
    | cons y b =>
      rw [compareArrays, ih b (i + 1)]
      simp only [List.zip_cons_cons, List.enumFrom_cons, List.flatMap_cons,
        List.length_cons, List.drop_succ_cons, Nat.succ_min_succ, Nat.add_succ,
        Nat.succ_add]
      simp [List.append_assoc]

theorem listEq_length {a b : List Value} (h : listEq a b = true) :
    a.length = b.length := by
  induction a generalizing b with
  | nil => cases b with
    | nil => rfl
    | cons y b => rw [listEq.eq_def] at h; simp at h
  | cons x a ih =>
    cases b with
    | nil => rw [listEq.eq_def] at h; simp at h
    | cons y b =>
      rw [listEq] at h
      simp only [Bool.and_eq_true] at h
      simp [ih h.2]

theorem listEq_zip {a b : List Value} (h : listEq a b = true) :
    ∀ p ∈ a.zip b, valueEq p.1 p.2 = true := by
  induction a generalizing b with
  | nil => simp
  | cons x a ih =>
    cases b with
    | nil => simp
    | cons y b =>
      rw [listEq] at h
      simp only [Bool.and_eq_true] at h
      intro p hp
      rcases List.mem_cons.mp hp with rfl | hp
      · exact h.1
      · exact ih h.2 p hp

/-- C6: the array diff recurses positionally on the common indices and
turns the longer side's tail into `Removed` (old longer) or `Added` (new
longer) entries at their indices — stated as a closed form of
`diff(Some [..], Some [..])` — and on the concrete examples it yields
exactly one `Added` entry at index 3 for `[1,2,3]` vs `[1,2,3,4]` and
exactly one `Changed` entry at index 0 for `[1,2,3]` vs `[9,2,3]`. -/
theorem diff_arrays_positional :
    (∀ (a b : List Value),
       diff (some (.arr a)) (some (.arr b)) =
         ((a.zip b).enumFrom 0).flatMap
           (fun p => compare [.idx p.1] p.2.1 p.2.2) ++
         ((a.drop b.length).enumFrom (min a.length b.length)).map
           (fun p => (⟨[.idx p.1], .removed p.2⟩ : DiffEntry)) ++
         ((b.drop a.length).enumFrom (min a.length b.length)).map
           (fun p => (⟨[.idx p.1], .added p.2⟩ : DiffEntry))) ∧
    diff (some (.arr [.num 1, .num 2, .num 3]))
      (some (.arr [.num 1, .num 2, .num 3, .num 4])) =
      [⟨[.idx 3], .added (.num 4)⟩] ∧
    diff (some (.arr [.num 1, .num 2, .num 3]))
      (some (.arr [.num 9, .num 2, .num 3])) =
      [⟨[.idx 0], .changed (.num 1) (.num 9)⟩] := by
  refine ⟨?_, ?_, ?_⟩
  · intro a b
    show compare [] (.arr a) (.arr b) = _
    rw [compare.eq_def]
    split
    · rename_i heq
      rw [valueEq] at heq
      have hlen := listEq_length heq
      have hzip := listEq_zip heq
      symm
      rw [List.append_eq_nil, List.append_eq_nil]
      refine ⟨⟨?_, ?_⟩, ?_⟩
      · rw [List.flatMap_eq_nil_iff]
        intro p hp
        have hp2 : p.2 ∈ a.zip b := by
          rw [← List.enumFrom_map_snd 0 (a.zip b)]
          exact List.mem_map_of_mem Prod.snd hp
        rw [compare.eq_def, if_pos (hzip p.2 hp2)]
      · simp [hlen]
      · simp [hlen]
    · have := compareArrays_spec [] a b 0
      simpa using this
  · simp [diff, compare.eq_def, compareArrays, valueEq, listEq]
  · simp [diff, compare.eq_def, compareArrays, valueEq, listEq]

/-! The polling loop. -/

/-- The number of reported (counter-bumping) ticks in a trace. -/
def countReported (trace : List TickResult) : Nat :=
  trace.countP isReported

/-- The loop body never executes the `break`: the loop exits only through
the change-limit test at its top. -/
theorem watchBody_never_exits (printDate : Bool) (verbose : Nat) (ts : String)
    (st : WatchState) (inp : TickInput) :
    (watchBody printDate verbose ts st inp).2 ≠ .exited := by
  cases inp with
  | sampleErr => simp [watchBody]
  | sample raw parsed =>
    cases parsed with
    | some j =>
      simp only [watchBody, tickDiff]
      split <;> simp
    | none =>
      by_cases hw : allWhitespace raw
      · have hb : watchBody printDate verbose ts st (.sample raw none) =
            tickDiff printDate ts st none := by
          simp [watchBody, hw]
        rw [hb]
        simp only [tickDiff]
        split <;> simp
      · simp [watchBody, hw]

/-- One tick bumps the change counter exactly when its result is a report
(a non-empty diff that got printed); every other outcome leaves both the
counter unchanged. -/
theorem watchTick_count (changes : Option Nat) (printDate : Bool)
    (verbose : Nat) (ts : String) (st : WatchState) (inp : TickInput) :
    (watchTick changes printDate verbose ts st inp).1.changeCount =
      st.changeCount +
        (if isReported (watchTick changes printDate verbose ts st inp).2 then 1 else 0) := by
  rw [watchTick]
  split
  · simp [isReported]
  · cases inp with
    | sampleErr => simp [watchBody, isReported]
    | sample raw parsed =>
      cases parsed with
      | some j =>
        simp only [watchBody, tickDiff]
        split <;> simp [isReported]
      | none =>
        by_cases hw : allWhitespace raw
        · have hb : watchBody printDate verbose ts st (.sample raw none) =
              tickDiff printDate ts st none := by
            simp [watchBody, hw]
          rw [hb]
          simp only [tickDiff]
          split <;> simp [isReported]
        · simp [watchBody, hw, isReported]

/-- A tick exits if and only if the change counter has already reached the
limit when the tick starts. -/
theorem watchTick_exits_iff (max : Nat) (printDate : Bool) (verbose : Nat)
    (ts : String) (st : WatchState) (inp : TickInput) :
    (watchTick (some max) printDate verbose ts st inp).2 = .exited ↔
      max ≤ st.changeCount := by
  rw [watchTick]
  constructor
  · intro h
    by_contra hlt
    rw [if_neg (by simp [atLimit, hlt])] at h
    exact watchBody_never_exits printDate verbose ts st inp h
  · intro h
    rw [if_pos (by simp [atLimit, h])]

/-- C1 counterexample: a loop tick whose sampling fails is skipped
wholesale — the stored value stays what it was (it is *not* degraded to
`None`) and no diff is computed on that tick, contrary to the claim that
the comparison still runs with `curr = None`. -/
theorem watch_sample_error_counterexample :
    watchTick none true 0 "t" ⟨some (.num 1), 0⟩ .sampleErr =
      (⟨some (.num 1), 0⟩, .skippedSampleError false) ∧
    (watchTick none true 0 "t" ⟨some (.num 1), 0⟩ .sampleErr).1.data ≠ none := by
  constructor
  · rfl
  · simp [watchTick, atLimit, watchBody]

/-- C1 (amended): on a loop tick, a sampling failure — and likewise a parse
failure on raw text with non-whitespace content — skips the tick entirely:
the stored value and counter are retained unchanged and no diff is
computed; a parse failure on empty/all-whitespace raw text degrades the
current value to `None` and the diff is still computed; and no failure ever
terminates the loop (the loop body never breaks — only the change-limit
test at the top of the loop does). -/
theorem watch_failure_skips_tick (changes : Option Nat) (printDate : Bool)
    (verbose : Nat) (ts : String) (st : WatchState)
    (hrun : atLimit changes st = false) :
    watchTick changes printDate verbose ts st .sampleErr =
      (st, .skippedSampleError (decide (1 ≤ verbose))) ∧
    (∀ raw, allWhitespace raw = false →
       watchTick changes printDate verbose ts st (.sample raw none) =
         (st, .skippedParseError (decide (1 ≤ verbose)))) ∧
    (∀ raw, allWhitespace raw = true →
       watchTick changes printDate verbose ts st (.sample raw none) =
         tickDiff printDate ts st none) ∧
    (∀ inp, (watchBody printDate verbose ts st inp).2 ≠ .exited) := by
  refine ⟨?_, ?_, ?_, fun inp => watchBody_never_exits printDate verbose ts st inp⟩
  · simp [watchTick, hrun, watchBody]
  · intro raw hraw
    simp [watchTick, hrun, watchBody, hraw]
  · intro raw hraw
    simp [watchTick, hrun, watchBody, hraw]

/-- Witness for C1's amended statement: a concrete skipped sampling-failure
tick, a concrete skipped parse-failure tick on non-whitespace input, and a
concrete degraded tick on the whitespace-only input U+000B. -/
theorem watch_failure_skips_tick_witness :
    atLimit none ⟨some (Value.num 1), 0⟩ = false ∧
    watchTick none true 1 "t" ⟨some (Value.num 1), 0⟩ .sampleErr =
      (⟨some (Value.num 1), 0⟩, .skippedSampleError true) ∧
    (allWhitespace "x" = false ∧
      watchTick none true 1 "t" ⟨some (Value.num 1), 0⟩ (.sample "x" none) =
        (⟨some (Value.num 1), 0⟩, .skippedParseError true)) ∧
    (allWhitespace "\x0b" = true ∧
      watchTick none true 1 "t" ⟨some (Value.num 1), 0⟩ (.sample "\x0b" none) =
        tickDiff true "t" ⟨some (Value.num 1), 0⟩ none) :=
  ⟨rfl,
   (watch_failure_skips_tick none true 1 "t" ⟨some (Value.num 1), 0⟩ rfl).1,
   ⟨by decide,
    (watch_failure_skips_tick none true 1 "t" ⟨some (Value.num 1), 0⟩ rfl).2.1
      "x" (by decide)⟩,
   ⟨by decide,
    (watch_failure_skips_tick none true 1 "t" ⟨some (Value.num 1), 0⟩ rfl).2.2.1
      "\x0b" (by decide)⟩⟩

/-- C8: a tick whose raw text is empty or all-whitespace (which
`serde_json` always rejects, so the parse oracle yields `none`) stores
`None` as the current value, still runs the comparison against the
previous value, and reports no parse error at any verbosity level — both
at startup (`watchInit`) and on a loop tick (`watchBody`). -/
theorem whitespace_tick_silent (verbose : Nat) (printDate : Bool) (ts : String)
    (st : WatchState) (raw : String) (parsed : Option Value)
    (hraw : allWhitespace raw = true) (hp : parsed = none) :
    watchInit verbose (.sample raw parsed) = (none, false, false) ∧
    watchBody printDate verbose ts st (.sample raw parsed) =
      tickDiff printDate ts st none ∧
    ∀ b, (watchBody printDate verbose ts st (.sample raw parsed)).2 ≠
      .skippedParseError b := by
  subst hp
  refine ⟨?_, ?_, ?_⟩
  · simp [watchInit, hraw]
  · simp [watchBody, hraw]
  · intro b
    have hb : watchBody printDate verbose ts st (.sample raw none) =
        tickDiff printDate ts st none := by
      simp [watchBody, hraw]
    rw [hb]
    simp only [tickDiff]
    split <;> simp

/-- Witness for C8 on a whitespace-only sample mixing an ASCII space with
the Unicode whitespace U+000B and U+00A0, with a previous value present. -/
theorem whitespace_tick_silent_witness :
    (allWhitespace "\x0b \u00A0" = true) ∧
    watchInit 2 (.sample "\x0b \u00A0" none) = (none, false, false) ∧
    watchBody true 2 "t" ⟨some (Value.num 1), 3⟩ (.sample "\x0b \u00A0" none) =
      tickDiff true "t" ⟨some (Value.num 1), 3⟩ none :=
  ⟨by decide,
   (whitespace_tick_silent 2 true "t" ⟨some (Value.num 1), 3⟩ "\x0b \u00A0" none
     (by decide) rfl).1,
   (whitespace_tick_silent 2 true "t" ⟨some (Value.num 1), 3⟩ "\x0b \u00A0" none
     (by decide) rfl).2.1⟩

theorem watchRun_inv (max : Nat) (printDate : Bool) (verbose : Nat)
    (ts : String) :
    ∀ (inputs : List TickInput) (st : WatchState), st.changeCount ≤ max →
      st.changeCount +
          countReported (watchRun (some max) printDate verbose ts st inputs).2 ≤ max ∧
      (.exited ∈ (watchRun (some max) printDate verbose ts st inputs).2 →
        st.changeCount +
          countReported (watchRun (some max) printDate verbose ts st inputs).2 = max) := by
  intro inputs
  induction inputs with
  | nil =>
    intro st hst
    simp [watchRun, countReported]
    exact hst
  | cons inp rest ih =>
    intro st hst
    rw [watchRun]
    by_cases hex : (watchTick (some max) printDate verbose ts st inp).2 = .exited
    · have hmax : max ≤ st.changeCount :=
        (watchTick_exits_iff max printDate verbose ts st inp).mp hex
      simp only [hex, if_pos rfl]
      simp [countReported, isReported]
      omega
    · simp only [if_neg hex]
      have hcount := watchTick_count (some max) printDate verbose ts st inp
      have hlt : st.changeCount < max := by
        by_contra hge
        exact hex ((watchTick_exits_iff max printDate verbose ts st inp).mpr (by omega))
      have hnext : (watchTick (some max) printDate verbose ts st inp).1.changeCount ≤ max := by
        rw [hcount]
        split <;> omega
      have := ih (watchTick (some max) printDate verbose ts st inp).1 hnext
      rw [countReported, List.countP_cons]
      rw [countReported] at this
      constructor
      · cases hrep : isReported (watchTick (some max) printDate verbose ts st inp).2 <;>
          simp [hrep] at hcount ⊢ <;> omega
      · intro hmem
        rcases List.mem_cons.mp hmem with h1 | h1
        · exact absurd h1.symm hex
        · have h2 := this.2 h1
          cases hrep : isReported (watchTick (some max) printDate verbose ts st inp).2 <;>
            simp [hrep] at hcount h2 ⊢ <;> omega

/-- C10: with `changes = Some max`, the change counter is bumped exactly on
ticks whose diff was non-empty (every skipped or empty tick leaves it
unchanged), the loop breaks exactly when the counter has reached `max`,
and over any run started fresh the number of reported ticks never exceeds
`max` and equals `max` whenever the loop exited. -/
theorem watch_change_limit (max : Nat) (printDate : Bool) (verbose : Nat)
    (ts : String) :
    (∀ (st : WatchState) (inp : TickInput),
       (watchTick (some max) printDate verbose ts st inp).1.changeCount =
         st.changeCount +
           (if isReported (watchTick (some max) printDate verbose ts st inp).2
            then 1 else 0)) ∧
    (∀ (st : WatchState) (inp : TickInput),
       (watchTick (some max) printDate verbose ts st inp).2 = .exited ↔
         max ≤ st.changeCount) ∧
    (∀ (d0 : Option Value) (inputs : List TickInput),
       countReported (watchRun (some max) printDate verbose ts ⟨d0, 0⟩ inputs).2 ≤ max ∧
       (.exited ∈ (watchRun (some max) printDate verbose ts ⟨d0, 0⟩ inputs).2 →
         countReported
           (watchRun (some max) printDate verbose ts ⟨d0, 0⟩ inputs).2 = max)) := by
  refine ⟨fun st inp => watchTick_count (some max) printDate verbose ts st inp,
    fun st inp => watchTick_exits_iff max printDate verbose ts st inp, ?_⟩
  intro d0 inputs
  have h := watchRun_inv max printDate verbose ts inputs ⟨d0, 0⟩ (by simp)
  constructor
  · have h1 := h.1
    simp at h1
    exact h1
  · intro hmem
    have h2 := h.2 hmem
    simp at h2
    exact h2

/-! Count-driven formatting. -/

theorem ne_nl_cr_of_not_control {c : Char} (h : is_control c = false) :
    c ≠ '\n' ∧ c ≠ '\r' := by
  constructor <;> rintro rfl <;> exact absurd h (by decide)

theorem natRepr_chars (n : Nat) : ∀ c ∈ (natRepr n).data, c ≠ '\n' ∧ c ≠ '\r' := by
  intro c hc
  rw [natRepr] at hc
  split at hc
  · simp at hc
    subst hc
    decide
  · obtain ⟨m, hm, rfl⟩ := digitsBase_chars 10 (by omega) n c hc
    exact ne_nl_cr_of_not_control (digitChar_safe m hm).1

theorem intRepr_chars (n : Int) : ∀ c ∈ (intRepr n).data, c ≠ '\n' ∧ c ≠ '\r' := by
  intro c hc
  rw [intRepr] at hc
  split at hc
  · rw [String.data_append] at hc
    rcases List.mem_append.mp hc with hc | hc
    · simp at hc
      subst hc
      decide
    · exact natRepr_chars _ c hc
  · exact natRepr_chars _ c hc

theorem toHex_chars_nl (n : Nat) : ∀ c ∈ (toHex n).data, c ≠ '\n' ∧ c ≠ '\r' :=
  fun c hc => ne_nl_cr_of_not_control (toHex_chars n c hc)

theorem hex4_chars (n : Nat) : ∀ c ∈ (hex4 n).data, c ≠ '\n' ∧ c ≠ '\r' := by
  intro c hc
  rw [hex4] at hc
  rw [String.data_append] at hc
  rcases List.mem_append.mp hc with hc | hc
  · have : c = '0' := by
      have := List.eq_of_mem_replicate (by simpa using hc)
      exact this
    subst this
    decide
  · exact toHex_chars_nl n c hc

theorem jsonEscapeChar_chars (x : Char) :
    ∀ c ∈ (jsonEscapeChar x).data, c ≠ '\n' ∧ c ≠ '\r' := by
  intro c hc
  rw [jsonEscapeChar] at hc
  split at hc
  · simp at hc
    rcases hc with rfl | rfl <;> decide
  · split at hc
    · simp at hc
      rcases hc with rfl | rfl <;> decide
    · split at hc
      · simp at hc
        rcases hc with rfl | rfl <;> decide
      · split at hc
        · simp at hc
          rcases hc with rfl | rfl <;> decide
        · split at hc
          · simp at hc
            rcases hc with rfl | rfl <;> decide
          · split at hc
            · rw [String.data_append] at hc
              rcases List.mem_append.mp hc with hc | hc
              · simp at hc
                rcases hc with rfl | rfl <;> decide
              · exact hex4_chars _ c hc
            · rename_i h1 h2 h3 h4 h5 h6
              simp [String.singleton] at hc
              subst hc
              constructor
              · exact h3
              · exact h5

theorem jsonEscape_chars (s : String) :
    ∀ c ∈ (jsonEscape s).data, c ≠ '\n' ∧ c ≠ '\r' := by
  intro c hc
  rw [jsonEscape, String.join_eq] at hc
  simp only [String.data] at hc
  rw [List.map_map] at hc
  obtain ⟨piece, hpiece, hcp⟩ := List.mem_flatten.mp hc
  obtain ⟨x, _, rfl⟩ := List.mem_map.mp hpiece
  exact jsonEscapeChar_chars x c hcp

theorem chars_append {s t : String}
    (hs : ∀ c ∈ s.data, c ≠ '\n' ∧ c ≠ '\r')
    (ht : ∀ c ∈ t.data, c ≠ '\n' ∧ c ≠ '\r') :
    ∀ c ∈ (s ++ t).data, c ≠ '\n' ∧ c ≠ '\r' := by
  intro c hc
  rw [String.data_append] at hc
  rcases List.mem_append.mp hc with hc | hc
  · exact hs c hc
  · exact ht c hc

theorem renderList_cons2 (x y : Value) (ys : List Value) :
    renderList (x :: y :: ys) = renderValue x ++ "," ++ renderList (y :: ys) := by
  rw [renderList]
  simp

theorem renderObj_cons2 (k : String) (v : Value) (kv2 : String × Value)
    (kvs2 : List (String × Value)) :
    renderObj ((k, v) :: kv2 :: kvs2) =
      "\"" ++ jsonEscape k ++ "\":" ++ renderValue v ++ "," ++
        renderObj (kv2 :: kvs2) := by
  rw [renderObj]
  simp

theorem renderList_chars_of {xs : List Value}
    (h : ∀ x ∈ xs, ∀ c ∈ (renderValue x).data, c ≠ '\n' ∧ c ≠ '\r') :
    ∀ c ∈ (renderList xs).data, c ≠ '\n' ∧ c ≠ '\r' := by
  induction xs with
  | nil =>
    rw [renderList]
    simp
  | cons x xs ih =>
    cases xs with
    | nil =>
      rw [renderList]
      exact h x (by simp)
    | cons y ys =>
      rw [renderList_cons2]
      exact chars_append (chars_append (h x (by simp)) (by decide))
        (ih fun z hz => h z (by simp [hz]))

theorem renderObj_chars_of {kvs : List (String × Value)}
    (h : ∀ kv ∈ kvs, ∀ c ∈ (renderValue kv.2).data, c ≠ '\n' ∧ c ≠ '\r') :
    ∀ c ∈ (renderObj kvs).data, c ≠ '\n' ∧ c ≠ '\r' := by
  induction kvs with
  | nil =>
    rw [renderObj]
    simp
  | cons kv kvs ih =>
    obtain ⟨k, v⟩ := kv
    cases kvs with
    | nil =>
      rw [renderObj]
      exact chars_append
        (chars_append (chars_append (by decide) (jsonEscape_chars k)) (by decide))
        (h (k, v) (by simp))
    | cons kv2 kvs2 =>
      rw [renderObj_cons2]
      exact chars_append
        (chars_append
          (chars_append
            (chars_append (chars_append (by decide) (jsonEscape_chars k)) (by decide))
            (h (k, v) (by simp)))
          (by decide))
        (ih fun z hz => h z (by simp [hz]))

/-- Every character of a value's compact rendering is a printable
character: in particular neither a newline nor a carriage return. -/
theorem renderValue_chars :
    ∀ (v : Value), ∀ c ∈ (renderValue v).data, c ≠ '\n' ∧ c ≠ '\r' := by
  suffices h : ∀ (n : Nat) (v : Value), sizeOf v ≤ n →
      ∀ c ∈ (renderValue v).data, c ≠ '\n' ∧ c ≠ '\r' by
    intro v
    exact h (sizeOf v) v le_rfl
  intro n
  induction n with
  | zero =>
    intro v hsz
    exfalso
    cases v <;> simp at hsz
  | succ n ih =>
    intro v hsz
    cases v with
    | null =>
      rw [renderValue]
      decide
    | bool b =>
      rw [renderValue]
      cases b <;> decide
    | num m =>
      rw [renderValue]
      exact intRepr_chars m
    | str s =>
      rw [renderValue]
      exact chars_append (chars_append (by decide) (jsonEscape_chars s)) (by decide)
    | arr xs =>
      rw [renderValue]
      have hxs : sizeOf xs ≤ n := by simp at hsz; omega
      exact chars_append
        (chars_append (by decide)
          (renderList_chars_of fun x hx => ih x
            (le_trans (Nat.le_of_lt (List.sizeOf_lt_of_mem hx)) hxs)))
        (by decide)
    | obj kvs =>
      rw [renderValue]
      have hkvs : sizeOf kvs ≤ n := by simp at hsz; omega
      refine chars_append
        (chars_append (by decide)
          (renderObj_chars_of fun kv hkv => ih kv.2 ?_))
        (by decide)
      have h1 := List.sizeOf_lt_of_mem hkv
      have h2 : sizeOf kv.2 < sizeOf kv := by
        obtain ⟨a, b⟩ := kv
        simp
      omega

theorem renderPath_chars (p : Path) :
    ∀ c ∈ (renderPath p).data, c ≠ '\n' ∧ c ≠ '\r' := by
  intro c hc
  rw [renderPath, String.join_eq] at hc
  simp only [String.data] at hc
  rw [List.map_map] at hc
  obtain ⟨piece, hpiece, hcp⟩ := List.mem_flatten.mp hc
  obtain ⟨seg, _, rfl⟩ := List.mem_map.mp hpiece
  cases seg with
  | key k =>
    exact chars_append (by decide) (jsonEscape_chars k) c hcp
  | idx i =>
    exact chars_append (chars_append (by decide) (natRepr_chars i)) (by decide) c hcp

/-- Every diff entry renders as a single line: its rendering contains no
newline (and no carriage return). -/
theorem renderEntry_chars (e : DiffEntry) :
    ∀ c ∈ (renderEntry e).data, c ≠ '\n' ∧ c ≠ '\r' := by
  obtain ⟨p, kind⟩ := e
  cases kind with
  | added v =>
    rw [renderEntry]
    exact chars_append
      (chars_append (chars_append (by decide) (renderPath_chars p)) (by decide))
      (renderValue_chars v)
  | removed v =>
    rw [renderEntry]
    exact chars_append
      (chars_append (chars_append (by decide) (renderPath_chars p)) (by decide))
      (renderValue_chars v)
  | changed o n =>
    rw [renderEntry]
    exact chars_append
      (chars_append
        (chars_append
          (chars_append (chars_append (by decide) (renderPath_chars p)) (by decide))
          (renderValue_chars o))
        (by decide))
      (renderValue_chars n)

theorem linesAux_cons_ne (c : Char) (t acc : List Char) (hc : c ≠ '\n') :
    linesAux (c :: t) acc = linesAux t (c :: acc) := by
  rw [linesAux, if_neg hc]

theorem linesAux_no_nl (l : List Char) (hl : ∀ c ∈ l, c ≠ '\n') :
    ∀ (rest acc : List Char),
      linesAux (l ++ rest) acc = linesAux rest (l.reverse ++ acc) := by
  induction l with
  | nil => intro rest acc; rfl
  | cons c l ih =>
    intro rest acc
    rw [List.cons_append, linesAux_cons_ne c _ _ (hl c (by simp)),
      ih (fun x hx => hl x (by simp [hx])) rest (c :: acc)]
    simp

theorem linesAux_terminated (l rest : List Char)
    (hl : ∀ c ∈ l, c ≠ '\n' ∧ c ≠ '\r') :
    linesAux (l ++ '\n' :: rest) [] = l :: linesAux rest [] := by
  rw [linesAux_no_nl l (fun c h => (hl c h).1) ('\n' :: rest) []]
  rw [List.append_nil]
  rw [linesAux, if_pos rfl]
  congr 1
  cases hrev : l.reverse with
  | nil =>
    have hl0 : l = [] := by simpa using congrArg List.reverse hrev
    subst hl0
    rfl
  | cons c t =>
    have hcl : c ∈ l := by
      have : c ∈ l.reverse := by rw [hrev]; simp
      simpa using this
    rw [dropCR, if_neg (hl c hcl).2]
    have : (l.reverse).reverse = (c :: t).reverse := congrArg List.reverse hrev
    simpa using this.symm

theorem linesAux_flatten (pieces : List (List Char))
    (h : ∀ p ∈ pieces, ∀ c ∈ p, c ≠ '\n' ∧ c ≠ '\r') :
    linesAux (List.flatten (pieces.map (· ++ ['\n']))) [] = pieces := by
  induction pieces with
  | nil => rfl
  | cons p ps ih =>
    simp only [List.map_cons, List.flatten_cons]
    rw [List.append_assoc, List.singleton_append]
    rw [linesAux_terminated p _ (h p (by simp))]
    rw [ih (fun q hq => h q (by simp [hq]))]

/-- Rust's `.lines()` undoes the newline-terminated join of single-line
pieces. -/
theorem rustLines_join (entries : List String)
    (h : ∀ e ∈ entries, ∀ c ∈ e.data, c ≠ '\n' ∧ c ≠ '\r') :
    rustLines (String.join (entries.map (· ++ "\n"))) = entries := by
  have hdata : (String.join (entries.map (· ++ "\n"))).data =
      List.flatten ((entries.map String.data).map (· ++ ['\n'])) := by
    rw [String.join_eq]
    simp only [String.data]
    rw [List.map_map, List.map_map]
    congr 1
  rw [rustLines, hdata]
  rw [linesAux_flatten _ (by
    intro p hp
    obtain ⟨e, he, rfl⟩ := List.mem_map.mp hp
    exact h e he)]
  rw [List.map_map]
  have hid : (String.mk ∘ String.data) = id := funext fun s => rfl
  rw [hid, List.map_id]

theorem renderDiff_eq_join (d : List DiffEntry) :
    renderDiff d = String.join ((d.map renderEntry).map (· ++ "\n")) := by
  rw [renderDiff, List.map_map]
  rfl

theorem renderDiff_single (e : DiffEntry) :
    renderDiff [e] = renderEntry e ++ "\n" := by
  apply String.ext
  rw [renderDiff, String.join_eq]
  simp [String.data_append]

/-- C3: a DiffResult with exactly one entry is printed inline — the
timestamp, a space (no line break), then the entry's single-line rendering;
a DiffResult with two or more entries is printed as the timestamp on its
own line followed by one four-space-indented line per entry. -/
theorem render_count_formatting (ts : String) (d : List DiffEntry) :
    (∀ e ∈ d, ∀ c ∈ (renderEntry e).data, c ≠ '\n') ∧
    (∀ e, d = [e] → renderTick true ts d = ts ++ " " ++ renderEntry e ++ "\n") ∧
    (2 ≤ d.length →
      renderTick true ts d =
        ts ++ "\n" ++ "    " ++
          String.intercalate "\n    " (d.map renderEntry) ++ "\n") := by
  refine ⟨fun e _ c hc => (renderEntry_chars e c hc).1, ?_, ?_⟩
  · intro e hd
    subst hd
    rw [renderTick]
    simp only [List.length_cons, List.length_nil, if_pos rfl]
    rw [renderDiff_single]
    apply String.ext
    simp [String.data_append]
  · intro h2
    rw [renderTick]
    have hlen : ¬ d.length = 1 := by omega
    rw [if_neg hlen, if_neg hlen]
    have hrl : rustLines (renderDiff d) = d.map renderEntry := by
      rw [renderDiff_eq_join]
      apply rustLines_join
      intro e he
      obtain ⟨x, _, rfl⟩ := List.mem_map.mp he
      exact renderEntry_chars x
    rw [hrl]
    apply String.ext
    simp [String.data_append]

/-- Witness for C3: one concrete single-entry rendering and one concrete
two-entry rendering. -/
theorem render_count_formatting_witness :
    renderTick true "T" [⟨[], .added .null⟩] =
      "T" ++ " " ++ renderEntry ⟨[], .added .null⟩ ++ "\n" ∧
    2 ≤ ([⟨[], .added .null⟩, ⟨[], .removed .null⟩] : List DiffEntry).length ∧
    renderTick true "T" [⟨[], .added .null⟩, ⟨[], .removed .null⟩] =
      "T" ++ "\n" ++ "    " ++
        String.intercalate "\n    "
          (([⟨[], .added .null⟩, ⟨[], .removed .null⟩] : List DiffEntry).map
            renderEntry) ++ "\n" :=
  ⟨(render_count_formatting "T" [⟨[], .added .null⟩]).2.1 _ rfl,
   by simp,
   (render_count_formatting "T" _).2.2 (by simp)⟩

/-- Witness for C10: with limit 1, a run that reports once and then exits
has exactly one reported tick in its trace. -/
theorem watch_change_limit_witness :
    Membership.mem
      (watchRun (some 1) false 0 "t" ⟨none, 0⟩
        [.sample "1" (some (.num 1)), .sample "1" (some (.num 1))]).2
      TickResult.exited ∧
    countReported
      (watchRun (some 1) false 0 "t" ⟨none, 0⟩
        [.sample "1" (some (.num 1)), .sample "1" (some (.num 1))]).2 = 1 := by
  have hmem : Membership.mem
      (watchRun (some 1) false 0 "t" ⟨none, 0⟩
        [.sample "1" (some (.num 1)), .sample "1" (some (.num 1))]).2
      TickResult.exited := by
    simp [watchRun, watchTick, atLimit, watchBody, tickDiff, diff]
  exact ⟨hmem, ((watch_change_limit 1 false 0 "t").2.2 none _).2 hmem⟩

end Jsonwatch
